import Mathlib

set_option maxHeartbeats 1000000

/-! Verification of the core components of a didactic proof-of-work blockchain
node, shallowly embedded from its Rust sources (types/merkle.rs,
blockchain/mod.rs, miner/mod.rs, types/transaction.rs, types/block.rs,
transaction_generator/mod.rs).

Modelling conventions:
* Rust `HashMap` is modelled as an association list: insertion conses at the
  front and lookup takes the first match, which reproduces overwrite
  semantics; `HashMap::remove` and key-membership are modelled accordingly.
* Machine integers (`u32`, `usize`, `u128`) are modelled as `Nat`; no claim
  under study exercises integer overflow.
* SHA-256, Ed25519 and bincode live in external crates (`ring`, `bincode`);
  they are modelled as abstract parameters (a pair-hashing function for the
  Merkle tree, an abstract signature scheme, an abstract size function), so
  every theorem below holds for the actual instantiations in particular.
* Hash values are abstracted: `Nat` identifiers where only equality matters,
  byte lists (`List Nat`) where the byte structure matters.
* Rust `while` loops are embedded as fuel-indexed structural recursions; each
  embedding is used with fuel proven sufficient for the states reached by the
  program, so the fuel never alters observable behaviour. -/

/-- Association-list lookup, the model of `HashMap::get`. -/
def alook {β : Type} (k : Nat) : List (Nat × β) → Option β
  | [] => none
  | (k', v) :: rest => if k = k' then some v else alook k rest

/-- Deletion of a key's bindings, the model of `HashMap::remove`. -/
def aerase {β : Type} (k : Nat) : List (Nat × β) → List (Nat × β)
  | [] => []
  | (k', v) :: rest => if k' = k then aerase k rest else (k', v) :: aerase k rest

/-- Left-biased alternative on options (first map shadows the second). -/
def oalt (o fallback : Option Nat) : Option Nat :=
  match o with
  | some v => some v
  | none => fallback

/-! ## Mempool (src/miner/mod.rs, `Mempool`)

`transaction_map` holds pending signed transactions keyed by hash;
`transaction_set` records every hash ever inserted.  The signed-transaction
type and its hash function are abstract parameters. -/

structure Mempool (τ : Type) where
  transaction_map : List (Nat × τ)
  transaction_set : List Nat

/-- `Mempool::new`. -/
def mpNew (τ : Type) : Mempool τ := ⟨[], []⟩

/-- `Mempool::insert`: no-op when the hash was ever seen, else add to both
the map and the set. -/
def mpInsert {τ : Type} (hashT : τ → Nat) (m : Mempool τ) (t : τ) : Mempool τ :=
  if hashT t ∈ m.transaction_set then m
  else ⟨(hashT t, t) :: m.transaction_map, hashT t :: m.transaction_set⟩

/-- `Mempool::remove`: drop the hash from the map only (guarded by
`contains_key`); the set is untouched. -/
def mpRemove {τ : Type} (m : Mempool τ) (h : Nat) : Mempool τ :=
  if (alook h m.transaction_map).isSome then
    ⟨aerase h m.transaction_map, m.transaction_set⟩
  else m

/-- An observable mempool operation (the two public mutators). -/
inductive MpOp (τ : Type) where
  | ins (t : τ)
  | rem (h : Nat)

def mpApply {τ : Type} (hashT : τ → Nat) (m : Mempool τ) : MpOp τ → Mempool τ
  | .ins t => mpInsert hashT m t
  | .rem h => mpRemove m h

def mpRun {τ : Type} (hashT : τ → Nat) (m : Mempool τ) (ops : List (MpOp τ)) : Mempool τ :=
  ops.foldl (mpApply hashT) m

/-! ## Miner transaction selection and publication (src/miner/mod.rs, miner_loop)

The byte budget loop (lines 191-206): iterate over a snapshot of the mempool
map in iteration order, keep a running serialized-size total, and break at the
first transaction whose addition would push the total past 4000 bytes.
`size` abstracts `bincode::serialize(tx).len()` (external crate). -/

def selectTxs {τ : Type} (size : τ → Nat) (limit : Nat) : List τ → Nat → List τ
  | [], _ => []
  | tx :: rest, current =>
    if limit < current + size tx then []
    else tx :: selectTxs size limit rest (current + size tx)

/-- The selection performed by one mining iteration over the snapshot
`pending` of the mempool map, with `block_limit = 4000`. -/
def minerSelect {τ : Type} (size : τ → Nat) (pending : List τ) : List τ :=
  selectTxs size 4000 pending 0

/-! ## The H256 order and the acceptance predicate

The crate's `types/hash.rs` is not among the provided sources.
Modelled from the spec: H256 values are 32-byte arrays totally ordered by
big-endian byte comparison (lexicographic order on the byte lists), and the
difficulty comparison treats both sides as 32-byte big-endian integers. -/

def h256_le : List Nat → List Nat → Bool
  | [], [] => true
  | [], _ :: _ => true
  | _ :: _, [] => false
  | x :: xs, y :: ys => if x < y then true else if y < x then false else h256_le xs ys

/-- The integer a big-endian byte list denotes. -/
def beVal : List Nat → Nat
  | [] => 0
  | b :: rest => b * 256 ^ rest.length + beVal rest

/-- The publication step of one mining iteration (src/miner/mod.rs lines
224-230): if the candidate block's hash is at most the fixed difficulty, every
included transaction is removed from the mempool and the block is published
(`true` = sent on the finished-block channel); otherwise nothing happens. -/
def minerPublishStep {τ : Type} (hashT : τ → Nat) (mp : Mempool τ)
    (blockHash difficulty : List Nat) (txs : List τ) : Mempool τ × Bool :=
  if h256_le blockHash difficulty then
    (txs.foldl (fun m tx => mpRemove m (hashT tx)) mp, true)
  else (mp, false)

/-! ## Miner / generator control signals (src/miner/mod.rs lines 139-179,
transaction_generator/mod.rs lines 106-146; the two dispatchers are
identical). -/

inductive ControlSig where
  | Start (i : Nat)
  | Update
  | Exit

inductive OpState where
  | Paused
  | Run (i : Nat)
  | ShutDown
deriving DecidableEq

/-- Signal dispatch in the `Paused` state (blocking receive): `Update` is an
explicit no-op. -/
def handleSignalPaused : ControlSig → OpState
  | .Exit => .ShutDown
  | .Start i => .Run i
  | .Update => .Paused

/-- Signal dispatch in the `Run` state (non-blocking receive): the `Update`
arm executes `unimplemented!()`, modelled as `none` (panic). -/
def handleSignalRun (_lambda : Nat) : ControlSig → Option OpState
  | .Exit => some .ShutDown
  | .Start i => some (.Run i)
  | .Update => none

/-! ## Blockchain store (src/blockchain/mod.rs)

The view of a block taken by the store is its own hash (`block.hash()`) and
its parent hash (`block.get_parent()`): these are the only attributes read by
`insert` and the chain walk.  Hashes are abstract `Nat` identifiers, with `0`
standing for the 32-byte zero hash (the genesis-parent sentinel). -/

structure RBlock where
  bhash : Nat
  parent : Nat
deriving DecidableEq

structure Chain where
  block_map : List (Nat × RBlock × Nat)
  tip : Nat
  height : Nat

/-- `Blockchain::new` at the store level: the genesis block (parent = zero
hash) stored at height 0; `g` abstracts the genesis block's hash. -/
def bcNew (g : Nat) : Chain := ⟨[(g, ⟨g, 0⟩, 0)], g, 0⟩

/-- `Blockchain::insert` (the source unwraps the parent lookup, so the parent
must be known; `getD 0` stands for that unreachable panic). -/
def bcInsert (c : Chain) (b : RBlock) : Chain :=
  let ph := ((alook b.parent c.block_map).map (fun p => p.2)).getD 0
  if b.parent = c.tip then
    ⟨(b.bhash, b, c.height + 1) :: c.block_map, b.bhash, c.height + 1⟩
  else
    if c.height < ph + 1 then
      ⟨(b.bhash, b, ph + 1) :: c.block_map, b.bhash, ph + 1⟩
    else
      ⟨(b.bhash, b, ph + 1) :: c.block_map, c.tip, c.height⟩

/-- `block_map.get(h).unwrap().0.get_parent()`. -/
def parentOf (c : Chain) (h : Nat) : Nat :=
  ((alook h c.block_map).map (fun p => p.1.parent)).getD 0

/-- The parent walk of `all_blocks_in_longest_chain` (push each non-zero
parent hash, then step to its parent). -/
def allBlocksLoop (c : Chain) : Nat → Nat → List Nat → List Nat
  | 0, _, chain => chain
  | fuel + 1, ph, chain =>
      if ph = 0 then chain
      else allBlocksLoop c fuel (parentOf c ph) (chain ++ [ph])

/-- `Blockchain::all_blocks_in_longest_chain`: start from the tip, walk
parents to the zero-hash sentinel, reverse.  The fuel `c.block_map.length`
strictly exceeds the walk length in every reachable state. -/
def allBlocksInLongestChain (c : Chain) : List Nat :=
  (allBlocksLoop c c.block_map.length (parentOf c c.tip) [c.tip]).reverse

/-- The blockchain states reachable by `Blockchain::new` followed by `insert`
calls.  The side conditions state the store-layer contract (parent known) and
the collision-freeness of SHA-256 block hashes (fresh, non-zero hash). -/
inductive Reached : Nat → Chain → Prop where
  | base (g : Nat) (hg : g ≠ 0) : Reached g (bcNew g)
  | step (g : Nat) (c : Chain) (b : RBlock) (hc : Reached g c)
      (hp : (alook b.parent c.block_map).isSome)
      (hf : alook b.bhash c.block_map = none)
      (h0 : b.bhash ≠ 0) : Reached g (bcInsert c b)

/-- The store invariant: no zero-hash block, the tip is stored at the chain
height, every stored height links correctly to the parent, heights are
bounded by the chain height, and the map has more entries than the height. -/
structure ChainInv (g : Nat) (c : Chain) : Prop where
  zero_absent : alook 0 c.block_map = none
  tip_entry : ∃ tb, alook c.tip c.block_map = some (tb, c.height)
  link : ∀ h pb ht, alook h c.block_map = some (pb, ht) →
      (ht = 0 → pb.parent = 0 ∧ h = g)
      ∧ (0 < ht → ∃ pp, alook pb.parent c.block_map = some (pp, ht - 1))
      ∧ ht ≤ c.height
  size : c.height < c.block_map.length

/-- The ancestor hashes of a height-`ht` block, in walk (tip-to-genesis)
order; the specification of the `allBlocksLoop` walk. -/
def ancSpec (c : Chain) : Nat → Nat → List Nat
  | 0, _ => []
  | ht + 1, h => parentOf c h :: ancSpec c ht (parentOf c h)

/-! ## Merkle tree (types/merkle.rs)

The element hash (`Hashable::hash`, SHA-256 of a serialization) and the pair
hash (`SHA-256(left ∥ right)`) are abstract parameters `hashFn` and `f`; every
statement below is proved for all instantiations.  Node indices are positions
in the flat `nodes` array, exactly as in the source. -/

structure MTree (H : Type) where
  nodes : List H
  node_amount : Nat
  tree_map : List (Nat × Nat)
  root_index : Nat
  leaf_nodes : Nat

/-- `reduce_layer`: hash consecutive pairs of an (always even-length) layer.
The source's `length == 2` special case computes the same value as the
general loop. -/
def reduceLayer {H : Type} (f : H → H → H) : List H → List H
  | a :: b :: rest => f a b :: reduceLayer f rest
  | _ => []

/-- Padding of an inner layer: duplicate the last element when the length is
odd and not 1 (`MerkleTree::new`, lines 149-152). -/
def padLayer {H : Type} [Inhabited H] (l : List H) : List H :=
  if l.length % 2 = 1 ∧ l.length ≠ 1 then l ++ [l.getLastD default] else l

/-- The layer-reduction loop of `MerkleTree::new` (lines 143-164): reduce,
pad to even (except a singleton), append to the flat node array, stop when
the unpadded new layer is a singleton (the root). -/
def growTree {H : Type} [Inhabited H] (f : H → H → H) : Nat → List H → List H → List H
  | 0, _, acc => acc
  | fuel + 1, old, acc =>
      let nl := reduceLayer f old
      let nlp := padLayer nl
      if nl.length = 1 then acc ++ nlp else growTree f fuel nlp (acc ++ nlp)

/-- The inner loop of `build_tree_map`: link the pairs of one layer (starting
at index `node`, `running - node` entries) to consecutive parents starting at
`parent`, bumping the final parent past the next layer's padding slot. -/
def btmInner : Nat → List (Nat × Nat) → Nat → Nat → Nat → Nat → List (Nat × Nat) × Nat × Nat
  | 0, mp, node, parent, _, _ => (mp, node, parent)
  | fuel + 1, mp, node, parent, running, layer =>
      if node = running then (mp, node, parent)
      else
        let mp' := (node + 1, parent) :: (node, parent) :: mp
        let node' := node + 2
        let parent' := if node' = running ∧ (layer / 2) % 2 = 1 then parent + 2 else parent + 1
        btmInner fuel mp' node' parent' running layer

/-- The outer loop of `build_tree_map`: process layers until the layer size
reaches 1, halving and re-padding the layer size each round. -/
def btmOuter : Nat → List (Nat × Nat) → Nat → Nat → Nat → Nat → List (Nat × Nat) × Nat
  | 0, mp, _, _, running, _ => (mp, running)
  | fuel + 1, mp, node, parent, running, layer =>
      if layer = 1 then (mp, running)
      else
        let r := btmInner running mp node parent running layer
        let m := layer / 2
        let layer' := if m % 2 = 1 ∧ m ≠ 1 then m + 1 else m
        btmOuter fuel r.1 r.2.1 r.2.2 (running + layer') layer'

/-- `build_tree_map(leaf_size)`: the child-index → parent-index map over the
flat node array, plus the root index. -/
def build_tree_map (leaf_size : Nat) : List (Nat × Nat) × Nat :=
  let r := btmOuter leaf_size [] 0 leaf_size leaf_size leaf_size
  (r.1, r.2 - 1)

/-- `MerkleTree::new`: hash the data, duplicate the last hash if the leaf
count is odd (including a single leaf), reduce layers to the root, and build
the index map. -/
def merkleNew {H T : Type} [Inhabited H] (f : H → H → H) (hashFn : T → H)
    (data : List T) : MTree H :=
  if data.length = 0 then ⟨[], 0, [], 0, 0⟩
  else
    let leaves := data.map hashFn
    let leaf_nodes := leaves.length
    let leaves2 := if leaves.length % 2 = 1 then leaves ++ [leaves.getLastD default] else leaves
    let leaf_size := leaves2.length
    let nodes := growTree f leaf_size leaves2 leaves2
    let bm := build_tree_map leaf_size
    ⟨nodes, nodes.length, bm.1, bm.2, leaf_nodes⟩

/-- `MerkleTree::root`: the zero hash for the empty tree, else the last node.
`zero` abstracts `H256::from([0; 32])`. -/
def merkleRoot {H : Type} (zero : H) (t : MTree H) : H :=
  if t.node_amount = 0 then zero else t.nodes.getLastD zero

/-- The climb loop of `MerkleTree::proof`: while the key is not the root
index, push the key's sibling node and step to the key's parent. -/
def proofLoop {H : Type} [Inhabited H] (nodes : List H) (mp : List (Nat × Nat))
    (rootIdx : Nat) : Nat → Nat → List H → List H
  | 0, _, acc => acc
  | fuel + 1, key, acc =>
      if key = rootIdx then acc
      else
        let sib := if key % 2 = 0 then nodes.getD (key + 1) default
                   else nodes.getD (key - 1) default
        proofLoop nodes mp rootIdx fuel ((alook key mp).getD 0) (acc ++ [sib])

/-- `MerkleTree::proof`: empty for an out-of-range index, else the leaf's
sibling followed by the climb from the leaf's parent. -/
def merkleProof {H : Type} [Inhabited H] (t : MTree H) (index : Nat) : List H :=
  if t.leaf_nodes ≤ index then []
  else
    let first := if index % 2 = 0 then t.nodes.getD (index + 1) default
                 else t.nodes.getD (index - 1) default
    proofLoop t.nodes t.tree_map t.root_index t.node_amount
      ((alook index t.tree_map).getD 0) [first]

/-- The reconstruction fold of `verify`: combine left or right according to
the parity of the running index, stepping the index through the map. -/
def verifyFold {H : Type} (f : H → H → H) (mp : List (Nat × Nat)) :
    List H → H → Nat → H
  | [], h, _ => h
  | p :: ps, h, idx =>
      verifyFold f mp ps (if idx % 2 = 0 then f h p else f p h) ((alook idx mp).getD 0)

/-- `verify(root, datum, proof, index, leaf_size)`: rebuild the tree map for
the (evened) leaf count, reject out-of-range indices, fold the proof and
compare with the root. -/
def merkleVerify {H : Type} [DecidableEq H] (f : H → H → H) (root datum : H)
    (prf : List H) (index leaf_size : Nat) : Bool :=
  let ls := if leaf_size % 2 = 1 then leaf_size + 1 else leaf_size
  let mp := (build_tree_map ls).1
  if leaf_size ≤ index then false
  else decide (verifyFold f mp prf datum index = root)

/-- Layer-size padding as a function on sizes: what `padLayer` does to the
length of a layer. -/
def padN (m : Nat) : Nat := if m % 2 = 1 ∧ m ≠ 1 then m + 1 else m

/-- Total node count of the tree over an even layer of `n ≥ 2` leaf slots:
the sum of all layer sizes down to the root. -/
def sumLens (n : Nat) : Nat :=
  if n ≤ 1 ∨ n % 2 = 1 then n
  else n + sumLens (padN (n / 2))
termination_by n
decreasing_by
  simp only [padN]
  split <;> omega

/-- Specification of the `build_tree_map` lookup: position `x = b + j` of a
layer of size `n` starting at offset `b` maps to slot `j / 2` of the next
layer (offset `b + n`). -/
def specLookup (b n x : Nat) : Option Nat :=
  if n ≤ 1 ∨ n % 2 = 1 then none
  else if x < b then none
  else if x < b + n then some (b + n + (x - b) / 2)
  else specLookup (b + n) (padN (n / 2)) x
termination_by n
decreasing_by
  simp only [padN]
  split <;> omega

/-! ## Genesis block (src/blockchain/mod.rs lines 10, 22-59; types/block.rs)

The header record and the constants used by `Blockchain::new`.  The random
generator and clock created there are unused (both uses are commented out in
the source): the genesis header is a closed value. -/

structure HeaderM where
  parent : List Nat
  nonce : Nat
  difficulty : List Nat
  timestamp : Nat
  merkle_root : List Nat
deriving DecidableEq

/-- The 32-byte zero hash. -/
def zeroH : List Nat := List.replicate 32 0

/-- `DIFFICULTY: [u8; 32] = [0, 0, 64, 1, ..., 1]`. -/
def DIFFICULTY : List Nat := 0 :: 0 :: 64 :: List.replicate 29 1

/-- The genesis header built by `Blockchain::new`: zero parent, nonce 0,
timestamp 0, the fixed difficulty, and the root of the Merkle tree over the
empty transaction list. -/
def genesisHeader : HeaderM :=
  { parent := zeroH
    nonce := 0
    difficulty := DIFFICULTY
    timestamp := 0
    merkle_root := merkleRoot zeroH (merkleNew (fun a _ => a) (fun _ : Unit => zeroH) []) }

/-- `Blockchain::new` with the header hash (SHA-256 of the bincode-serialized
header, both external) abstracted: the store is seeded with the genesis block
under its header hash. -/
def blockchainNew (hashH : HeaderM → Nat) : Chain := bcNew (hashH genesisHeader)

/-! ## Transactions and signatures (types/transaction.rs of the
ece598pv-sp2022-main-2 tree, lines 9-29 and 50-60)

`Transaction` over 20-byte addresses and `u32` fields.  Its canonical
serialization: modelled from the spec, a deterministic binary encoding of the
four fields in order (the external bincode crate: fixed-width fields,
little-endian integers). -/

structure TxRec where
  sender : List Nat
  account_nonce : Nat
  receiver : List Nat
  value : Nat
deriving DecidableEq

/-- Little-endian 4-byte encoding of a `u32` (256 ^ 2 = 65536,
256 ^ 3 = 16777216). -/
def u32le (n : Nat) : List Nat :=
  [n % 256, n / 256 % 256, n / 65536 % 256, n / 16777216 % 256]

/-- The canonical serialization of the unsigned `Transaction`. -/
def serializeTx (t : TxRec) : List Nat :=
  t.sender ++ (u32le t.account_nonce ++ (t.receiver ++ u32le t.value))

/-- A well-formed transaction record: 20-byte addresses, `u32` fields
(4294967296 = 2 ^ 32). -/
def wfTx (t : TxRec) : Prop :=
  t.sender.length = 20 ∧ t.receiver.length = 20
  ∧ t.account_nonce < 4294967296 ∧ t.value < 4294967296

/-- A block record (types/block.rs): `Block::hash()` hashes the header only.
The unsigned record `TxRec` stands in as the content's payload carrier (the
genesis content is empty, so the signature bytes are irrelevant here). -/
structure BlockM where
  header : HeaderM
  content : List TxRec
deriving DecidableEq

/-- The genesis block built by `Blockchain::new`: the genesis header with an
empty transaction list. -/
def genesisBlock : BlockM := { header := genesisHeader, content := [] }

/-- The Ed25519 primitive of the external ring crate, as an abstract
deterministic signature scheme: public keys determine the keypair, a
signature verifies against the signed message and key, and against no other
message or key.  `verifyRaw pk sig msg` is total (`false`, never an error,
on any invalid signature or unparseable key). -/
structure Ed25519Model (κ σ : Type) where
  pubkey : κ → List Nat
  sign : κ → List Nat → σ
  verifyRaw : List Nat → σ → List Nat → Bool
  pubkey_inj : ∀ k k', pubkey k = pubkey k' → k = k'
  sign_verify : ∀ k m, verifyRaw (pubkey k) (sign k m) m = true
  verify_msg : ∀ k m m', m' ≠ m → verifyRaw (pubkey k) (sign k m) m' = false
  verify_key : ∀ k k' m, pubkey k' ≠ pubkey k → verifyRaw (pubkey k') (sign k m) m = false

/-- `sign(t, key)`: sign the canonical serialization. -/
def signTx {κ σ : Type} (E : Ed25519Model κ σ) (t : TxRec) (k : κ) : σ :=
  E.sign k (serializeTx t)

/-- `verify(t, public_key, signature)`: verify the canonical serialization;
returns a `Bool` (any failure yields `false`). -/
def verifyTx {κ σ : Type} (E : Ed25519Model κ σ) (t : TxRec) (pk : List Nat) (sg : σ) : Bool :=
  E.verifyRaw pk sg (serializeTx t)

/-- A concrete instance of the abstract Ed25519 contract (used to witness
that the contract is satisfiable): signatures carry the message and key
identifier. -/
def idealEd25519 : Ed25519Model Nat (List Nat × Nat) where
  pubkey k := [k]
  sign k m := (m, k)
  verifyRaw pk sg m := decide (sg.1 = m ∧ [sg.2] = pk)
  pubkey_inj := by intro k k' h; simpa using h
  sign_verify := by intro k m; simp
  verify_msg := by
    intro k m m' h
    simp only [decide_eq_false_iff_not, not_and]
    intro he
    exact absurd he.symm h
  verify_key := by
    intro k k' m h
    simp only [decide_eq_false_iff_not, not_and]
    intro _ he
    exact h (by simpa using he.symm)

/-! ######################################################################
    Theorems
###################################################################### -/

theorem alook_nil {β : Type} (k : Nat) : alook k ([] : List (Nat × β)) = none := rfl

theorem alook_cons {β : Type} (k k' : Nat) (v : β) (l : List (Nat × β)) :
    alook k ((k', v) :: l) = if k = k' then some v else alook k l := rfl

theorem mpRemove_set {τ : Type} (m : Mempool τ) (h : Nat) :
    (mpRemove m h).transaction_set = m.transaction_set := by
  unfold mpRemove
  split <;> rfl

theorem mpApply_set_mono {τ : Type} (hashT : τ → Nat) (m : Mempool τ) (op : MpOp τ)
    (x : Nat) (hx : x ∈ m.transaction_set) : x ∈ (mpApply hashT m op).transaction_set := by
  cases op with
  | ins t =>
      simp only [mpApply, mpInsert]
      split
      · exact hx
      · exact List.mem_cons_of_mem _ hx
  | rem h =>
      simpa [mpApply, mpRemove_set] using hx

theorem mpRun_set_mono {τ : Type} (hashT : τ → Nat) (m : Mempool τ) (ops : List (MpOp τ))
    (x : Nat) (hx : x ∈ m.transaction_set) : x ∈ (mpRun hashT m ops).transaction_set := by
  induction ops generalizing m with
  | nil => exact hx
  | cons op rest ih =>
      exact ih (mpApply hashT m op) (mpApply_set_mono hashT m op x hx)

theorem mpInsert_mem_set {τ : Type} (hashT : τ → Nat) (m : Mempool τ) (t : τ) :
    hashT t ∈ (mpInsert hashT m t).transaction_set := by
  unfold mpInsert
  split
  · assumption
  · exact List.mem_cons_self _ _

theorem mpInsert_of_mem {τ : Type} (hashT : τ → Nat) (m : Mempool τ) (t : τ)
    (h : hashT t ∈ m.transaction_set) : mpInsert hashT m t = m := by
  unfold mpInsert
  exact if_pos h

theorem selectTxs_spec {τ : Type} (size : τ → Nat) (limit : Nat) :
    ∀ (l : List τ) (current : Nat), current ≤ limit →
      (selectTxs size limit l current = l.take (selectTxs size limit l current).length)
      ∧ current + ((selectTxs size limit l current).map size).sum ≤ limit
      ∧ (∀ tx, (l.drop (selectTxs size limit l current).length).head? = some tx →
          limit < current + ((selectTxs size limit l current).map size).sum + size tx) := by
  intro l
  induction l with
  | nil =>
      intro current hc
      refine ⟨rfl, by simpa using hc, ?_⟩
      intro tx htx
      simp at htx
  | cons tx rest ih =>
      intro current hc
      by_cases hover : limit < current + size tx
      · simp only [selectTxs, if_pos hover]
        refine ⟨rfl, by simpa using hc, ?_⟩
        intro tx' htx'
        simp only [List.length_nil, List.drop_zero, List.head?_cons] at htx'
        cases htx'
        simpa using hover
      · have hle : current + size tx ≤ limit := Nat.le_of_not_lt hover
        obtain ⟨ih1, ih2, ih3⟩ := ih (current + size tx) hle
        simp only [selectTxs, if_neg hover]
        refine ⟨?_, ?_, ?_⟩
        · simpa using ih1
        · simpa [Nat.add_assoc] using ih2
        · intro tx' htx'
          have := ih3 tx' (by simpa using htx')
          simpa [Nat.add_assoc] using this

theorem beVal_lt (l : List Nat) (hb : ∀ x ∈ l, x < 256) : beVal l < 256 ^ l.length := by
  induction l with
  | nil => simp [beVal]
  | cons b rest ih =>
      have hrest : beVal rest < 256 ^ rest.length := ih (fun x hx => hb x (List.mem_cons_of_mem _ hx))
      have hbb : b < 256 := hb b (List.mem_cons_self _ _)
      have h1 : b * 256 ^ rest.length + beVal rest < (b + 1) * 256 ^ rest.length := by
        calc b * 256 ^ rest.length + beVal rest
            < b * 256 ^ rest.length + 256 ^ rest.length := by omega
          _ = (b + 1) * 256 ^ rest.length := by ring
      have h2 : (b + 1) * 256 ^ rest.length ≤ 256 * 256 ^ rest.length :=
        Nat.mul_le_mul_right _ (by omega)
      calc beVal (b :: rest) = b * 256 ^ rest.length + beVal rest := rfl
        _ < (b + 1) * 256 ^ rest.length := h1
        _ ≤ 256 * 256 ^ rest.length := h2
        _ = 256 ^ (rest.length + 1) := by ring
        _ = 256 ^ (b :: rest).length := by simp

theorem h256_le_iff_beVal (x y : List Nat) (hlen : x.length = y.length)
    (hx : ∀ a ∈ x, a < 256) (hy : ∀ a ∈ y, a < 256) :
    h256_le x y = true ↔ beVal x ≤ beVal y := by
  induction x generalizing y with
  | nil =>
      cases y with
      | nil => simp [h256_le, beVal]
      | cons b ys => simp at hlen
  | cons a xs ih =>
      cases y with
      | nil => simp at hlen
      | cons b ys =>
          have hlen' : xs.length = ys.length := by simpa using hlen
          have hxs : ∀ a ∈ xs, a < 256 := fun a ha => hx a (List.mem_cons_of_mem _ ha)
          have hys : ∀ a ∈ ys, a < 256 := fun a ha => hy a (List.mem_cons_of_mem _ ha)
          have hvx : beVal xs < 256 ^ xs.length := beVal_lt xs hxs
          have hvy : beVal ys < 256 ^ ys.length := beVal_lt ys hys
          simp only [h256_le, beVal]
          rcases Nat.lt_trichotomy a b with hab | hab | hab
          · rw [if_pos hab]
            have hlt : a * 256 ^ xs.length + beVal xs < b * 256 ^ ys.length := by
              calc a * 256 ^ xs.length + beVal xs
                  < a * 256 ^ xs.length + 256 ^ xs.length := by omega
                _ = (a + 1) * 256 ^ xs.length := by ring
                _ ≤ b * 256 ^ xs.length := Nat.mul_le_mul_right _ (by omega)
                _ = b * 256 ^ ys.length := by rw [hlen']
            simp only [true_iff]
            omega
          · subst hab
            rw [if_neg (lt_irrefl a), if_neg (lt_irrefl a), hlen']
            rw [ih ys hlen' hxs hys]
            omega
          · have hna : ¬ a < b := by omega
            rw [if_neg hna, if_pos hab]
            have hlt : b * 256 ^ ys.length + beVal ys < a * 256 ^ xs.length := by
              calc b * 256 ^ ys.length + beVal ys
                  < b * 256 ^ ys.length + 256 ^ ys.length := by omega
                _ = (b + 1) * 256 ^ ys.length := by ring
                _ ≤ a * 256 ^ ys.length := Nat.mul_le_mul_right _ (by omega)
                _ = a * 256 ^ xs.length := by rw [hlen']
            simp only [Bool.false_eq_true, false_iff]
            omega

theorem alook_aerase_self {β : Type} (k : Nat) (l : List (Nat × β)) :
    alook k (aerase k l) = none := by
  induction l with
  | nil => rfl
  | cons p rest ih =>
      cases p with
      | mk k' v =>
          by_cases hpk : k' = k
          · simpa [aerase, hpk] using ih
          · simp only [aerase, if_neg hpk, alook_cons]
            rw [if_neg (fun he => hpk he.symm)]
            exact ih

theorem alook_none_aerase {β : Type} (k j : Nat) (l : List (Nat × β))
    (h : alook k l = none) : alook k (aerase j l) = none := by
  induction l with
  | nil => rfl
  | cons p rest ih =>
      cases p with
      | mk k' v =>
          rw [alook_cons] at h
          by_cases hk : k = k'
          · rw [if_pos hk] at h; exact absurd h (by simp)
          · rw [if_neg hk] at h
            by_cases hj : k' = j
            · simp only [aerase, if_pos hj]
              exact ih h
            · simp only [aerase, if_neg hj, alook_cons, if_neg hk]
              exact ih h

theorem mpRemove_lookup_self {τ : Type} (m : Mempool τ) (h : Nat) :
    alook h (mpRemove m h).transaction_map = none := by
  unfold mpRemove
  by_cases hc : (alook h m.transaction_map).isSome
  · rw [if_pos hc]
    exact alook_aerase_self h m.transaction_map
  · rw [if_neg hc]
    cases he : alook h m.transaction_map with
    | none => exact he ▸ rfl
    | some v => simp [he] at hc

theorem mpRemove_lookup_none {τ : Type} (m : Mempool τ) (h k : Nat)
    (hk : alook k m.transaction_map = none) :
    alook k (mpRemove m h).transaction_map = none := by
  unfold mpRemove
  split
  · exact alook_none_aerase k h m.transaction_map hk
  · exact hk

theorem foldRemove_set {τ : Type} (hashT : τ → Nat) (txs : List τ) (m : Mempool τ) :
    (txs.foldl (fun m tx => mpRemove m (hashT tx)) m).transaction_set = m.transaction_set := by
  induction txs generalizing m with
  | nil => rfl
  | cons tx rest ih => simp only [List.foldl_cons]; rw [ih, mpRemove_set]

theorem foldRemove_lookup_none {τ : Type} (hashT : τ → Nat) (txs : List τ) (m : Mempool τ)
    (k : Nat) (hk : alook k m.transaction_map = none) :
    alook k (txs.foldl (fun m tx => mpRemove m (hashT tx)) m).transaction_map = none := by
  induction txs generalizing m with
  | nil => exact hk
  | cons tx rest ih =>
      simp only [List.foldl_cons]
      exact ih _ (mpRemove_lookup_none _ _ _ hk)

theorem foldRemove_removes {τ : Type} (hashT : τ → Nat) (txs : List τ) (m : Mempool τ) :
    ∀ tx ∈ txs, alook (hashT tx) (txs.foldl (fun m tx => mpRemove m (hashT tx)) m).transaction_map = none := by
  induction txs generalizing m with
  | nil => intro tx htx; simp at htx
  | cons t rest ih =>
      intro tx htx
      rcases List.mem_cons.mp htx with heq | hmem
      · subst heq
        simp only [List.foldl_cons]
        exact foldRemove_lookup_none hashT rest _ _ (mpRemove_lookup_self m (hashT tx))
      · simp only [List.foldl_cons]
        exact ih _ tx hmem

theorem bcInsert_normal (g : Nat) (c : Chain) (b : RBlock) (inv : ChainInv g c)
    (pb : RBlock) (ph : Nat) (hp : alook b.parent c.block_map = some (pb, ph)) :
    bcInsert c b = ⟨(b.bhash, b, ph + 1) :: c.block_map,
      if c.height < ph + 1 then b.bhash else c.tip, max c.height (ph + 1)⟩ := by
  unfold bcInsert
  simp only [hp, Option.map_some', Option.getD_some]
  by_cases ht : b.parent = c.tip
  · rw [if_pos ht]
    obtain ⟨tb, htb⟩ := inv.tip_entry
    rw [ht, htb] at hp
    have hph : c.height = ph := congrArg Prod.snd (Option.some.inj hp)
    subst hph
    simp [Nat.max_eq_right (Nat.le_succ c.height)]
  · rw [if_neg ht]
    by_cases hlt : c.height < ph + 1
    · rw [if_pos hlt]
      simp [hlt, Nat.max_eq_right (Nat.le_of_lt hlt)]
    · rw [if_neg hlt]
      have hmax : max c.height (ph + 1) = c.height := Nat.max_eq_left (by omega)
      simp [hlt, hmax]

theorem chainInv_insert (g : Nat) (c : Chain) (b : RBlock) (inv : ChainInv g c)
    (hp : (alook b.parent c.block_map).isSome)
    (hf : alook b.bhash c.block_map = none) (h0 : b.bhash ≠ 0) :
    ChainInv g (bcInsert c b) := by
  obtain ⟨⟨pb, ph⟩, hpe⟩ : ∃ v, alook b.parent c.block_map = some v :=
    Option.isSome_iff_exists.mp hp
  have hparent_ne : b.parent ≠ b.bhash := by
    intro he
    rw [he, hf] at hpe
    exact Option.noConfusion hpe
  have hph_le : ph ≤ c.height := (inv.link _ _ _ hpe).2.2
  have htip_ne : c.tip ≠ b.bhash := by
    intro he
    obtain ⟨tb, htb⟩ := inv.tip_entry
    rw [he, hf] at htb
    exact Option.noConfusion htb
  rw [bcInsert_normal g c b inv pb ph hpe]
  constructor
  case zero_absent =>
    rw [alook_cons, if_neg (fun he => h0 he.symm)]
    exact inv.zero_absent
  case tip_entry =>
    by_cases hlt : c.height < ph + 1
    · refine ⟨b, ?_⟩
      simp only [if_pos hlt]
      rw [alook_cons, if_pos rfl]
      have : max c.height (ph + 1) = ph + 1 := Nat.max_eq_right (Nat.le_of_lt hlt)
      rw [this]
    · obtain ⟨tb, htb⟩ := inv.tip_entry
      refine ⟨tb, ?_⟩
      simp only [if_neg hlt]
      rw [alook_cons, if_neg htip_ne]
      have : max c.height (ph + 1) = c.height := Nat.max_eq_left (by omega)
      rw [this]
      exact htb
  case link =>
    intro h pb' ht' hl
    rw [alook_cons] at hl
    by_cases hh : h = b.bhash
    · rw [if_pos hh] at hl
      have hpb' : pb' = b := (congrArg Prod.fst (Option.some.inj hl)).symm
      have hht' : ht' = ph + 1 := (congrArg Prod.snd (Option.some.inj hl)).symm
      subst hpb'
      subst hht'
      refine ⟨fun he => absurd he (Nat.succ_ne_zero ph), fun _ => ⟨pb, ?_⟩, ?_⟩
      · rw [alook_cons, if_neg hparent_ne]
        simpa using hpe
      · exact le_max_right _ _
    · rw [if_neg hh] at hl
      obtain ⟨l1, l2, l3⟩ := inv.link h pb' ht' hl
      refine ⟨l1, fun hpos => ?_, le_trans l3 (le_max_left _ _)⟩
      obtain ⟨pp, hpp⟩ := l2 hpos
      have hne : pb'.parent ≠ b.bhash := by
        intro he
        rw [he, hf] at hpp
        exact Option.noConfusion hpp
      refine ⟨pp, ?_⟩
      rw [alook_cons, if_neg hne]
      exact hpp
  case size =>
    simp only [List.length_cons]
    have := inv.size
    have hm : max c.height (ph + 1) ≤ c.height + 1 := by omega
    omega

theorem chainInv_reached (g : Nat) (c : Chain) (hr : Reached g c) : ChainInv g c := by
  induction hr with
  | base hg =>
      constructor
      case zero_absent =>
        rw [show (bcNew g).block_map = [(g, ⟨g, 0⟩, 0)] from rfl, alook_cons,
          if_neg (fun he => hg he.symm)]
        rfl
      case tip_entry =>
        exact ⟨⟨g, 0⟩, by simp [bcNew, alook]⟩
      case link =>
        intro h pb ht hl
        rw [show (bcNew g).block_map = [(g, ⟨g, 0⟩, 0)] from rfl, alook_cons] at hl
        by_cases hh : h = g
        · rw [if_pos hh] at hl
          have hpb : pb = ⟨g, 0⟩ := (congrArg Prod.fst (Option.some.inj hl)).symm
          have hht : ht = 0 := (congrArg Prod.snd (Option.some.inj hl)).symm
          subst hpb
          subst hht
          exact ⟨fun _ => ⟨rfl, hh⟩, fun hpos => absurd hpos (by omega), le_refl 0⟩
        · rw [if_neg hh] at hl
          exact Option.noConfusion hl
      case size =>
        simp [bcNew]
  | step c b hc hp hf h0 ih =>
      exact chainInv_insert g c b ih hp hf h0

theorem allBlocksLoop_spec (g : Nat) (c : Chain) (inv : ChainInv g c) :
    ∀ ht h pb, alook h c.block_map = some (pb, ht) →
      ∀ fuel, ht ≤ fuel → ∀ chain,
        allBlocksLoop c fuel (parentOf c h) chain = chain ++ ancSpec c ht h := by
  intro ht
  induction ht with
  | zero =>
      intro h pb hl fuel _ chain
      have hpar : pb.parent = 0 := ((inv.link h pb 0 hl).1 rfl).1
      have hpo : parentOf c h = 0 := by simp [parentOf, hl, hpar]
      rw [hpo]
      cases fuel with
      | zero => simp [allBlocksLoop, ancSpec]
      | succ f => simp [allBlocksLoop, ancSpec]
  | succ ht ih =>
      intro h pb hl fuel hfuel chain
      obtain ⟨pp, hpp⟩ := (inv.link h pb (ht + 1) hl).2.1 (Nat.succ_pos ht)
      have hpp' : alook pb.parent c.block_map = some (pp, ht) := by simpa using hpp
      have hpo : parentOf c h = pb.parent := by simp [parentOf, hl]
      have hpne : pb.parent ≠ 0 := by
        intro he
        rw [he, inv.zero_absent] at hpp'
        exact Option.noConfusion hpp'
      cases fuel with
      | zero => omega
      | succ f =>
          rw [hpo]
          simp only [allBlocksLoop, if_neg hpne]
          have hpo2 : parentOf c pb.parent = parentOf c pb.parent := rfl
          have := ih pb.parent pp hpp' f (by omega) (chain ++ [pb.parent])
          rw [this]
          simp [ancSpec, hpo]

theorem ancSpec_reverse_spec (g : Nat) (c : Chain) (inv : ChainInv g c) :
    ∀ ht h pb, alook h c.block_map = some (pb, ht) →
      (ancSpec c ht h).length = ht
      ∧ (∃ rest, (ancSpec c ht h).reverse ++ [h] = g :: rest)
      ∧ List.Chain' (fun x y => parentOf c y = x) ((ancSpec c ht h).reverse ++ [h]) := by
  intro ht
  induction ht with
  | zero =>
      intro h pb hl
      have hg : h = g := ((inv.link h pb 0 hl).1 rfl).2
      exact ⟨rfl, ⟨[], by simp [ancSpec, hg]⟩, by simp [ancSpec]⟩
  | succ ht ih =>
      intro h pb hl
      obtain ⟨pp, hpp⟩ := (inv.link h pb (ht + 1) hl).2.1 (Nat.succ_pos ht)
      have hpp' : alook pb.parent c.block_map = some (pp, ht) := by simpa using hpp
      have hpo : parentOf c h = pb.parent := by simp [parentOf, hl]
      obtain ⟨ihlen, ⟨rest, ihg⟩, ihchain⟩ := ih pb.parent pp hpp'
      refine ⟨by simp [ancSpec, hpo, ihlen], ⟨rest ++ [h], ?_⟩, ?_⟩
      · simp only [ancSpec, hpo, List.reverse_cons]
        rw [ihg]
        simp
      · simp only [ancSpec, hpo, List.reverse_cons]
        rw [List.chain'_append]
        refine ⟨ihchain, by simp, ?_⟩
        intro x hx y hy
        simp only [List.head?_cons, Option.mem_def, Option.some.injEq] at hy
        rw [List.getLast?_concat] at hx
        simp only [Option.mem_def, Option.some.injEq] at hx
        subst hx
        subst hy
        exact hpo

theorem allBlocks_spec (g : Nat) (c : Chain) (inv : ChainInv g c) :
    allBlocksInLongestChain c = (ancSpec c c.height c.tip).reverse ++ [c.tip] := by
  obtain ⟨tb, htb⟩ := inv.tip_entry
  unfold allBlocksInLongestChain
  rw [allBlocksLoop_spec g c inv c.height c.tip tb htb c.block_map.length
    (le_of_lt inv.size) [c.tip]]
  simp

theorem growTree_acc {H : Type} [Inhabited H] (f : H → H → H) :
    ∀ (fuel : Nat) (old acc : List H),
      growTree f fuel old acc = acc ++ growTree f fuel old [] := by
  intro fuel
  induction fuel with
  | zero => intro old acc; simp [growTree]
  | succ n ih =>
      intro old acc
      simp only [growTree]
      by_cases h1 : (reduceLayer f old).length = 1
      · rw [if_pos h1, if_pos h1]
        simp
      · rw [if_neg h1, if_neg h1]
        rw [ih (padLayer (reduceLayer f old)) (acc ++ padLayer (reduceLayer f old)),
            ih (padLayer (reduceLayer f old)) ([] ++ padLayer (reduceLayer f old))]
        simp

theorem proofLoop_acc {H : Type} [Inhabited H] (nodes : List H) (mp : List (Nat × Nat))
    (rootIdx : Nat) : ∀ (fuel key : Nat) (acc : List H),
      proofLoop nodes mp rootIdx fuel key acc = acc ++ proofLoop nodes mp rootIdx fuel key [] := by
  intro fuel
  induction fuel with
  | zero => intro key acc; simp [proofLoop]
  | succ n ih =>
      intro key acc
      simp only [proofLoop]
      by_cases hk : key = rootIdx
      · rw [if_pos hk, if_pos hk]
        simp
      · rw [if_neg hk, if_neg hk]
        rw [ih ((alook key mp).getD 0)
            (acc ++ [if key % 2 = 0 then nodes.getD (key + 1) default else nodes.getD (key - 1) default]),
          ih ((alook key mp).getD 0)
            ([] ++ [if key % 2 = 0 then nodes.getD (key + 1) default else nodes.getD (key - 1) default])]
        simp

theorem proofLoop_root {H : Type} [Inhabited H] (nodes : List H) (mp : List (Nat × Nat))
    (rootIdx : Nat) (fuel : Nat) (acc : List H) :
    proofLoop nodes mp rootIdx fuel rootIdx acc = acc := by
  cases fuel with
  | zero => rfl
  | succ n => simp [proofLoop]

theorem reduceLayer_length {H : Type} (f : H → H → H) :
    ∀ l : List H, (reduceLayer f l).length = l.length / 2
  | [] => by simp [reduceLayer]
  | [_] => by simp [reduceLayer]
  | a :: b :: rest => by
      simp only [reduceLayer, List.length_cons, reduceLayer_length f rest]
      omega

theorem reduceLayer_getD {H : Type} [Inhabited H] (f : H → H → H) :
    ∀ (l : List H) (i : Nat), 2 * i + 1 < l.length →
      (reduceLayer f l).getD i default
        = f (l.getD (2 * i) default) (l.getD (2 * i + 1) default)
  | [], i, h => by simp at h
  | [_], i, h => by simp at h
  | a :: b :: rest, 0, _ => by simp [reduceLayer]
  | a :: b :: rest, i + 1, h => by
      have h' : 2 * i + 1 < rest.length := by
        simp only [List.length_cons] at h
        omega
      have e1 : 2 * (i + 1) = 2 * i + 1 + 1 := by ring
      rw [e1]
      simp only [reduceLayer, List.getD_cons_succ]
      exact reduceLayer_getD f rest i h'

theorem getD_drop {H : Type} :
    ∀ (N : List H) (b i : Nat) (d : H), (N.drop b).getD i d = N.getD (b + i) d := by
  intro N
  induction N with
  | nil => intro b i d; simp
  | cons x xs ih =>
      intro b i d
      cases b with
      | zero => simp
      | succ b' =>
          have : b' + 1 + i = (b' + i) + 1 := by omega
          rw [this, List.getD_cons_succ]
          exact ih b' i d

theorem getLastD_append_ne {H : Type} (y : H) (ys : List H) :
    ∀ (l1 : List H) (d : H), (l1 ++ y :: ys).getLastD d = (y :: ys).getLastD d := by
  intro l1
  induction l1 with
  | nil => intro d; rfl
  | cons x xs ih =>
      intro d
      rw [List.cons_append, List.getLastD_cons]
      rw [ih x]
      cases ys with
      | nil => rfl
      | cons z zs => rfl

theorem padLayer_length {H : Type} [Inhabited H] (l : List H) :
    (padLayer l).length = padN l.length := by
  by_cases h : l.length % 2 = 1 ∧ l.length ≠ 1 <;> simp [padLayer, padN, h]

theorem padLayer_getD {H : Type} [Inhabited H] (l : List H) (i : Nat) (hi : i < l.length) :
    (padLayer l).getD i default = l.getD i default := by
  unfold padLayer
  split
  · rw [List.getD_append _ _ _ _ hi]
  · rfl

theorem padN_ge (m : Nat) : m ≤ padN m := by
  unfold padN
  split <;> omega

theorem padN_le (m : Nat) : padN m ≤ m + 1 := by
  unfold padN
  split <;> omega

theorem padN_even_or_one (m : Nat) (hm : 1 ≤ m) : padN m % 2 = 0 ∨ padN m = 1 := by
  unfold padN
  split
  · next h => left; omega
  · next h =>
      rcases Nat.eq_or_lt_of_le hm with h1 | h1
      · right; omega
      · left; omega

theorem sumLens_base (n : Nat) (h : n ≤ 1 ∨ n % 2 = 1) : sumLens n = n := by
  rw [sumLens, if_pos h]

theorem sumLens_even (n : Nat) (h2 : 2 ≤ n) (he : n % 2 = 0) :
    sumLens n = n + sumLens (padN (n / 2)) := by
  rw [sumLens, if_neg (by omega)]

theorem sumLens_ge (n : Nat) : n ≤ sumLens n := by
  induction n using Nat.strong_induction_on with
  | _ n ih =>
      rw [sumLens]
      split
      · exact le_refl n
      · omega

theorem sumLens_ge_succ (n : Nat) (h2 : 2 ≤ n) (he : n % 2 = 0) : n + 1 ≤ sumLens n := by
  rw [sumLens_even n h2 he]
  have h1 : 1 ≤ padN (n / 2) := le_trans (by omega) (padN_ge (n / 2))
  have := sumLens_ge (padN (n / 2))
  omega

theorem specLookup_base (b n x : Nat) (h : n ≤ 1 ∨ n % 2 = 1) : specLookup b n x = none := by
  rw [specLookup, if_pos h]

theorem specLookup_lt (b n x : Nat) (h2 : 2 ≤ n) (he : n % 2 = 0) (hx : x < b) :
    specLookup b n x = none := by
  rw [specLookup, if_neg (by omega), if_pos hx]

theorem specLookup_in (b n x : Nat) (h2 : 2 ≤ n) (he : n % 2 = 0) (hxb : b ≤ x)
    (hxn : x < b + n) : specLookup b n x = some (b + n + (x - b) / 2) := by
  rw [specLookup, if_neg (by omega), if_neg (by omega), if_pos hxn]

theorem specLookup_ge (b n x : Nat) (h2 : 2 ≤ n) (he : n % 2 = 0) (hge : b + n ≤ x) :
    specLookup b n x = specLookup (b + n) (padN (n / 2)) x := by
  rw [specLookup, if_neg (by omega), if_neg (by omega), if_neg (by omega)]

theorem oalt_some (v : Nat) (f : Option Nat) : oalt (some v) f = some v := rfl

theorem oalt_none (f : Option Nat) : oalt none f = f := rfl

theorem btmInner_spec (layer : Nat) :
    ∀ (s fuel a p : Nat) (mp : List (Nat × Nat)), s ≤ fuel →
      ∃ m', btmInner fuel mp a p (a + 2 * s) layer
              = (m', a + 2 * s, p + s + (if 0 < s ∧ (layer / 2) % 2 = 1 then 1 else 0))
        ∧ ∀ x, alook x m'
              = if a ≤ x ∧ x < a + 2 * s then some (p + (x - a) / 2) else alook x mp := by
  intro s
  induction s with
  | zero =>
      intro fuel a p mp _
      refine ⟨mp, ?_, ?_⟩
      · cases fuel with
        | zero => simp [btmInner]
        | succ f2 => simp [btmInner]
      · intro x
        rw [if_neg (by omega)]
  | succ s ih =>
      intro fuel a p mp hs
      cases fuel with
      | zero => omega
      | succ f =>
          have hne : a ≠ a + 2 * (s + 1) := by omega
          obtain ⟨m', heq, hlook⟩ := ih f (a + 2)
            (if a + 2 = a + 2 * (s + 1) ∧ (layer / 2) % 2 = 1 then p + 2 else p + 1)
            ((a + 1, p) :: (a, p) :: mp) (by omega)
          have harg : a + 2 + 2 * s = a + 2 * (s + 1) := by omega
          rw [harg] at heq
          refine ⟨m', ?_, ?_⟩
          · simp only [btmInner, if_neg hne]
            rw [heq]
            have hp2 : (if a + 2 = a + 2 * (s + 1) ∧ (layer / 2) % 2 = 1 then p + 2 else p + 1)
                  + s + (if 0 < s ∧ (layer / 2) % 2 = 1 then 1 else 0)
                = p + (s + 1) + (if 0 < s + 1 ∧ (layer / 2) % 2 = 1 then 1 else 0) := by
              split_ifs <;> omega
            rw [hp2]
          · intro x
            rw [hlook x]
            by_cases hx1 : a + 2 ≤ x ∧ x < a + 2 + 2 * s
            · rw [if_pos hx1]
              have hs0 : ¬ (a + 2 = a + 2 * (s + 1) ∧ (layer / 2) % 2 = 1) := by
                rintro ⟨h1, _⟩
                omega
              rw [if_neg hs0, if_pos (by omega)]
              congr 1
              omega
            · rw [if_neg hx1]
              by_cases hxa1 : x = a + 1
              · rw [alook_cons, if_pos hxa1, if_pos (by omega)]
                congr 1
                omega
              · by_cases hxa : x = a
                · rw [alook_cons, if_neg hxa1, alook_cons, if_pos hxa, if_pos (by omega)]
                  congr 1
                  omega
                · rw [alook_cons, if_neg hxa1, alook_cons, if_neg hxa]
                  rw [if_neg (by omega)]

theorem btmOuter_spec :
    ∀ (n : Nat), 2 ≤ n → n % 2 = 0 → ∀ (fuel b : Nat) (mp : List (Nat × Nat)), n ≤ fuel →
      ∃ m', btmOuter fuel mp b (b + n) (b + n) n = (m', b + sumLens n)
        ∧ ∀ x, alook x m' = oalt (specLookup b n x) (alook x mp) := by
  intro n
  induction n using Nat.strong_induction_on with
  | _ n ihn =>
      intro h2 he fuel b mp hfuel
      cases fuel with
      | zero => omega
      | succ f =>
          have hn1 : n ≠ 1 := by omega
          obtain ⟨m1, heq1, hlook1⟩ := btmInner_spec n (n / 2) (b + n) b (b + n) mp (by omega)
          have hrun : b + 2 * (n / 2) = b + n := by omega
          rw [hrun] at heq1
          have hlay : (if (n / 2) % 2 = 1 ∧ n / 2 ≠ 1 then n / 2 + 1 else n / 2) = padN (n / 2) := rfl
          by_cases hm1 : n / 2 = 1
          · -- n = 2: the next layer is the root, the outer loop stops
            have hn2 : n = 2 := by omega
            subst hn2
            refine ⟨m1, ?_, ?_⟩
            · simp only [btmOuter, if_neg hn1]
              rw [heq1]
              have hsum : sumLens 2 = 3 := by
                rw [sumLens_even 2 (by omega) (by omega)]
                norm_num [padN, sumLens_base]
              rw [hsum]
              norm_num
              cases f with
              | zero => simp [btmOuter]
              | succ f2 => simp [btmOuter]
            · intro x
              rw [hlook1 x]
              by_cases hx : b ≤ x ∧ x < b + 2 * 1
              · rw [if_pos hx]
                rw [specLookup_in b 2 x (by omega) (by omega) (by omega) (by omega)]
                rw [oalt_some]
              · rw [if_neg hx]
                by_cases hxb : x < b
                · rw [specLookup_lt b 2 x (by omega) (by omega) hxb, oalt_none]
                · have hge : b + 2 ≤ x := by omega
                  rw [specLookup_ge b 2 x (by omega) (by omega) hge]
                  have : padN (2 / 2) = 1 := rfl
                  rw [this, specLookup_base (b + 2) 1 x (by omega), oalt_none]
          · -- n ≥ 4: recurse on the next layer
            have hm2 : 2 ≤ n / 2 := by omega
            have hn4 : 4 ≤ n := by omega
            have hpadeven : padN (n / 2) % 2 = 0 := by
              rcases padN_even_or_one (n / 2) (by omega) with h | h
              · exact h
              · exfalso
                have := padN_ge (n / 2)
                omega
            have hpad2 : 2 ≤ padN (n / 2) := le_trans hm2 (padN_ge (n / 2))
            have hpadlt : padN (n / 2) < n := by
              have := padN_le (n / 2)
              omega
            have hparent : b + n + n / 2 + (if 0 < n / 2 ∧ (n / 2) % 2 = 1 then 1 else 0)
                = b + n + padN (n / 2) := by
              unfold padN
              split_ifs <;> omega
            obtain ⟨m2, heq2, hlook2⟩ := ihn (padN (n / 2)) hpadlt hpad2 hpadeven f (b + n) m1
              (by have := padN_le (n / 2); omega)
            refine ⟨m2, ?_, ?_⟩
            · simp only [btmOuter, if_neg hn1]
              rw [heq1]
              simp only [hlay]
              rw [hparent, heq2, sumLens_even n h2 he]
              congr 1
              omega
            · intro x
              rw [hlook2 x, hlook1 x]
              by_cases hxb : x < b
              · rw [specLookup_lt b n x h2 he hxb]
                rw [specLookup_lt (b + n) (padN (n / 2)) x hpad2 hpadeven (by omega)]
                rw [oalt_none, oalt_none, if_neg (by omega)]
              · by_cases hxn : x < b + n
                · rw [specLookup_in b n x h2 he (by omega) hxn]
                  rw [specLookup_lt (b + n) (padN (n / 2)) x hpad2 hpadeven (by omega)]
                  rw [oalt_none, oalt_some, if_pos (by omega)]
                · rw [specLookup_ge b n x h2 he (by omega)]
                  rw [if_neg (by omega)]

theorem build_tree_map_spec (n : Nat) (h2 : 2 ≤ n) (he : n % 2 = 0) :
    (build_tree_map n).2 + 1 = sumLens n
    ∧ ∀ x, alook x (build_tree_map n).1 = specLookup 0 n x := by
  obtain ⟨m', heq, hlook⟩ := btmOuter_spec n h2 he n 0 [] (le_refl n)
  simp only [Nat.zero_add] at heq
  unfold build_tree_map
  rw [heq]
  constructor
  · have := sumLens_ge_succ n h2 he
    simp only []
    omega
  · intro x
    have := hlook x
    simp only [Nat.zero_add] at this
    rw [this]
    cases hs : specLookup 0 n x with
    | none => rw [oalt_none, alook_nil]
    | some v => rw [oalt_some]

theorem getD_append_left {H : Type} :
    ∀ (l1 l2 : List H) (i : Nat) (d : H), i < l1.length →
      (l1 ++ l2).getD i d = l1.getD i d := by
  intro l1
  induction l1 with
  | nil => intro l2 i d hi; simp at hi
  | cons x xs ih =>
      intro l2 i d hi
      cases i with
      | zero => rfl
      | succ i' =>
          simp only [List.cons_append, List.getD_cons_succ]
          exact ih l2 i' d (by simpa using hi)

theorem getLastD_drop_eq {H : Type} (N L : List H) (b : Nat) (h : N.drop b = L)
    (hne : L ≠ []) (d : H) : N.getLastD d = L.getLastD d := by
  obtain ⟨y, ys, rfl⟩ := List.exists_cons_of_ne_nil hne
  conv_lhs => rw [← List.take_append_drop b N, h]
  exact getLastD_append_ne y ys (N.take b) d

theorem sumLens_two : sumLens 2 = 3 := by
  rw [sumLens_even 2 (by omega) (by omega)]
  have h1 : padN (2 / 2) = 1 := rfl
  rw [h1, sumLens_base 1 (by omega)]

theorem merkleMain {H : Type} [DecidableEq H] [Inhabited H] (f : H → H → H)
    (N : List H) (M : List (Nat × Nat)) (R : Nat) :
    ∀ (W : Nat) (l : List H) (b j gfuel fuel : Nat), l.length ≤ W →
      2 ≤ l.length → l.length % 2 = 0 → j < l.length → b % 2 = 0 →
      N.drop b = l ++ growTree f gfuel l [] →
      l.length ≤ gfuel →
      (∀ x, b ≤ x → alook x M = specLookup b l.length x) →
      R + 1 = b + sumLens l.length →
      l.length ≤ fuel →
      verifyFold f M (proofLoop N M R fuel (b + j) []) (l.getD j default) (b + j)
        = N.getLastD default := by
  intro W
  induction W with
  | zero =>
      intro l b j gfuel fuel hW h2 he hj hb h1 hgf hM hR hfuel
      omega
  | succ W ih =>
      intro l b j gfuel fuel hW h2 he hj hb h1 hgf hM hR hfuel
      cases gfuel with
      | zero => omega
      | succ gf =>
      cases fuel with
      | zero => omega
      | succ fu =>
      have hsumge := sumLens_ge_succ l.length h2 he
      have hRgt : b + j < R := by omega
      have hkey : alook (b + j) M = some (b + l.length + j / 2) := by
        rw [hM (b + j) (Nat.le_add_right b j),
          specLookup_in b l.length (b + j) h2 he (Nat.le_add_right b j) (by omega)]
        have e : b + j - b = j := by omega
        rw [e]
      have hNg : ∀ i, i < l.length → N.getD (b + i) default = l.getD i default := by
        intro i hi
        rw [← getD_drop N b i default, h1, getD_append_left _ _ _ _ hi]
      have hcomb : (if (b + j) % 2 = 0
            then f (l.getD j default)
              (if (b + j) % 2 = 0 then N.getD (b + j + 1) default else N.getD (b + j - 1) default)
            else f (if (b + j) % 2 = 0 then N.getD (b + j + 1) default
                else N.getD (b + j - 1) default) (l.getD j default))
          = (reduceLayer f l).getD (j / 2) default := by
        rw [reduceLayer_getD f l (j / 2) (by omega)]
        by_cases hj2 : j % 2 = 0
        · rw [if_pos (by omega : (b + j) % 2 = 0), if_pos (by omega : (b + j) % 2 = 0)]
          have e0 : 2 * (j / 2) = j := by omega
          rw [e0]
          have e2 : b + j + 1 = b + (j + 1) := by omega
          rw [e2, hNg (j + 1) (by omega)]
        · have hbj : ¬ (b + j) % 2 = 0 := by omega
          rw [if_neg hbj, if_neg hbj]
          have e0 : 2 * (j / 2) = j - 1 := by omega
          rw [e0]
          have e1 : j - 1 + 1 = j := by omega
          rw [e1]
          have e2 : b + j - 1 = b + (j - 1) := by omega
          rw [e2, hNg (j - 1) (by omega)]
      have hstep : proofLoop N M R (fu + 1) (b + j) []
          = (if (b + j) % 2 = 0 then N.getD (b + j + 1) default else N.getD (b + j - 1) default)
            :: proofLoop N M R fu (b + l.length + j / 2) [] := by
        simp only [proofLoop, if_neg (by omega : ¬ b + j = R), hkey, Option.getD_some]
        rw [proofLoop_acc N M R fu (b + l.length + j / 2)]
        simp
      rw [hstep]
      simp only [verifyFold]
      rw [hkey]
      simp only [Option.getD_some]
      rw [hcomb]
      by_cases hl2 : l.length = 2
      · -- final layer: the next index is the root and the fold ends there
        have hnl1 : (reduceLayer f l).length = 1 := by rw [reduceLayer_length]; omega
        obtain ⟨r, hr⟩ := List.length_eq_one.mp hnl1
        rw [hl2] at hR
        rw [sumLens_two] at hR
        have hkeyR : b + l.length + j / 2 = R := by omega
        rw [hkeyR, proofLoop_root]
        simp only [verifyFold]
        rw [hr]
        have hj0 : j / 2 = 0 := by omega
        rw [hj0]
        have hpadr : padLayer (reduceLayer f l) = reduceLayer f l := by
          unfold padLayer
          rw [if_neg (by rw [hnl1]; simp)]
        have hgrow : growTree f (gf + 1) l [] = reduceLayer f l := by
          simp only [growTree, if_pos hnl1, hpadr]
          simp
        have h1' : N.drop b = l ++ [r] := by rw [h1, hgrow, hr]
        rw [getLastD_drop_eq N (l ++ [r]) b h1' (by simp) default]
        rw [getLastD_append_ne r [] l default]
        rfl
      · -- inner layer: step to the next layer and recurse
        have hl4 : 4 ≤ l.length := by omega
        have hnl : (reduceLayer f l).length = l.length / 2 := reduceLayer_length f l
        have hnlne1 : ¬ (reduceLayer f l).length = 1 := by omega
        have hl'len : (padLayer (reduceLayer f l)).length = padN (l.length / 2) := by
          rw [padLayer_length, hnl]
        have hl'2 : 2 ≤ (padLayer (reduceLayer f l)).length := by
          rw [hl'len]
          exact le_trans (by omega) (padN_ge _)
        have hl'even : (padLayer (reduceLayer f l)).length % 2 = 0 := by
          rw [hl'len]
          rcases padN_even_or_one (l.length / 2) (by omega) with h | h
          · exact h
          · exfalso
            have := padN_ge (l.length / 2)
            omega
        have hl'le : (padLayer (reduceLayer f l)).length ≤ l.length - 1 := by
          rw [hl'len]
          have := padN_le (l.length / 2)
          omega
        have hgrow : growTree f (gf + 1) l []
            = padLayer (reduceLayer f l) ++ growTree f gf (padLayer (reduceLayer f l)) [] := by
          simp only [growTree, if_neg hnlne1]
          rw [growTree_acc f gf (padLayer (reduceLayer f l)) ([] ++ padLayer (reduceLayer f l))]
          simp
        have hdd : (N.drop b).drop l.length = N.drop (b + l.length) := by
          rw [List.drop_drop]
        have h1' : N.drop (b + l.length)
            = padLayer (reduceLayer f l) ++ growTree f gf (padLayer (reduceLayer f l)) [] := by
          rw [← hdd, h1, List.drop_left, hgrow]
        have hpadget : (padLayer (reduceLayer f l)).getD (j / 2) default
            = (reduceLayer f l).getD (j / 2) default :=
          padLayer_getD _ (j / 2) (by rw [hnl]; omega)
        rw [← hpadget]
        exact ih (padLayer (reduceLayer f l)) (b + l.length) (j / 2) gf fu
          (by omega)
          hl'2 hl'even
          (by rw [hl'len]; have := padN_ge (l.length / 2); omega)
          (by omega)
          h1'
          (by omega)
          (fun x hx => by
            rw [hM x (by omega), specLookup_ge b l.length x h2 he (by omega), hl'len])
          (by rw [hl'len, hR, sumLens_even l.length h2 he]; omega)
          (by omega)

theorem getD_map_get {T H : Type} [Inhabited H] (hashFn : T → H) :
    ∀ (data : List T) (i : Nat) (hi : i < data.length),
      (data.map hashFn).getD i default = hashFn (data.get ⟨i, hi⟩) := by
  intro data
  induction data with
  | nil => intro i hi; simp at hi
  | cons x xs ih =>
      intro i hi
      cases i with
      | zero => rfl
      | succ i' =>
          simp only [List.map_cons, List.getD_cons_succ, List.get_cons_succ]
          exact ih i' (by simpa using hi)

theorem merkleAux {H : Type} [DecidableEq H] [Inhabited H] (f : H → H → H) (zero : H)
    (L : List H) (leaf_nodes i : Nat)
    (h2 : 2 ≤ L.length) (he : L.length % 2 = 0) (hin : i < leaf_nodes)
    (hln : leaf_nodes ≤ L.length)
    (hls : (if leaf_nodes % 2 = 1 then leaf_nodes + 1 else leaf_nodes) = L.length) :
    merkleVerify f
      (merkleRoot zero
        ⟨growTree f L.length L L, (growTree f L.length L L).length,
          (build_tree_map L.length).1, (build_tree_map L.length).2, leaf_nodes⟩)
      (L.getD i default)
      (merkleProof
        ⟨growTree f L.length L L, (growTree f L.length L L).length,
          (build_tree_map L.length).1, (build_tree_map L.length).2, leaf_nodes⟩ i)
      i leaf_nodes = true := by
  have hiL : i < L.length := lt_of_lt_of_le hin hln
  have hN : growTree f L.length L L = L ++ growTree f L.length L [] :=
    growTree_acc f L.length L L
  have hNlen : L.length ≤ (growTree f L.length L L).length := by
    rw [hN]
    simp
  obtain ⟨hRspec, hMspec⟩ := build_tree_map_spec L.length h2 he
  have hsum := sumLens_ge_succ L.length h2 he
  have hiR : i ≠ (build_tree_map L.length).2 := by omega
  have hproof : merkleProof
        ⟨growTree f L.length L L, (growTree f L.length L L).length,
          (build_tree_map L.length).1, (build_tree_map L.length).2, leaf_nodes⟩ i
      = proofLoop (growTree f L.length L L) (build_tree_map L.length).1
          (build_tree_map L.length).2 ((growTree f L.length L L).length + 1) i [] := by
    simp only [merkleProof]
    rw [if_neg (by omega : ¬ leaf_nodes ≤ i)]
    conv_rhs => rw [proofLoop]
    rw [if_neg hiR]
    rw [proofLoop_acc _ _ _ ((growTree f L.length L L).length) ((alook i (build_tree_map L.length).1).getD 0),
      proofLoop_acc _ _ _ ((growTree f L.length L L).length) ((alook i (build_tree_map L.length).1).getD 0)
        ([] ++ [if i % 2 = 0 then (growTree f L.length L L).getD (i + 1) default
          else (growTree f L.length L L).getD (i - 1) default])]
    simp
  have hLne : L ≠ [] := by
    intro he'
    rw [he'] at h2
    simp at h2
  have hNne : growTree f L.length L L ≠ [] := by
    obtain ⟨y, ys, hNys⟩ := List.exists_cons_of_ne_nil hLne
    rw [hN, hNys]
    simp
  obtain ⟨z, zs, hNzs⟩ := List.exists_cons_of_ne_nil hNne
  have hroot : merkleRoot zero
      ⟨growTree f L.length L L, (growTree f L.length L L).length,
        (build_tree_map L.length).1, (build_tree_map L.length).2, leaf_nodes⟩
      = (growTree f L.length L L).getLastD default := by
    simp only [merkleRoot]
    rw [if_neg (by rw [hNzs]; simp : ¬ (growTree f L.length L L).length = 0)]
    rw [hNzs]
    rfl
  have hmain := merkleMain f (growTree f L.length L L) (build_tree_map L.length).1
    (build_tree_map L.length).2 L.length L 0 i L.length ((growTree f L.length L L).length + 1)
    (le_refl L.length) h2 he hiL (by omega)
    (by simpa using hN)
    (le_refl L.length)
    (fun x _ => hMspec x)
    (by omega)
    (by omega)
  simp only [Nat.zero_add] at hmain
  simp only [merkleVerify]
  rw [hls]
  rw [if_neg (by omega : ¬ leaf_nodes ≤ i)]
  rw [hproof, hmain, hroot]
  simp

/-- C1: Merkle inclusion round-trip.  For every leaf list `data` with at least
one element and every index `i < |data|`, building the tree with
`MerkleTree::new(data)` and then calling
`verify(root, data[i].hash(), proof(data, i), i, |data|)` returns `true`;
proved for every pair-hash function `f` and leaf-hash function `hashFn`
(hence for the SHA-256 instantiation of the source). -/
theorem c1_merkle_inclusion_roundtrip {H T : Type} [DecidableEq H] [Inhabited H]
    (f : H → H → H) (hashFn : T → H) (zero : H) (data : List T) (i : Nat)
    (hlen : 1 ≤ data.length) (hi : i < data.length) :
    merkleVerify f (merkleRoot zero (merkleNew f hashFn data))
      (hashFn (data.get ⟨i, hi⟩)) (merkleProof (merkleNew f hashFn data) i)
      i data.length = true := by
  have hne0 : ¬ data.length = 0 := by omega
  obtain ⟨lv, hlv⟩ : ∃ lv, data.map hashFn = lv := ⟨_, rfl⟩
  obtain ⟨L, hL⟩ : ∃ L, (if lv.length % 2 = 1 then lv ++ [lv.getLastD default] else lv) = L :=
    ⟨_, rfl⟩
  have hlvlen : lv.length = data.length := by
    rw [← hlv]
    simp
  have ht : merkleNew f hashFn data
      = ⟨growTree f L.length L L, (growTree f L.length L L).length,
          (build_tree_map L.length).1, (build_tree_map L.length).2, lv.length⟩ := by
    unfold merkleNew
    rw [if_neg hne0, hlv]
    dsimp only
    rw [hL]
  have hLcases : (lv.length % 2 = 1 ∧ L.length = lv.length + 1)
      ∨ (lv.length % 2 = 0 ∧ L = lv) := by
    by_cases hpar : lv.length % 2 = 1
    · left
      refine ⟨hpar, ?_⟩
      rw [← hL, if_pos hpar]
      simp
    · right
      exact ⟨by omega, by rw [← hL, if_neg hpar]⟩
  have h2 : 2 ≤ L.length := by
    rcases hLcases with ⟨_, hl⟩ | ⟨hev, hl⟩
    · omega
    · rw [hl]
      omega
  have he : L.length % 2 = 0 := by
    rcases hLcases with ⟨hod, hl⟩ | ⟨hev, hl⟩
    · omega
    · rw [hl]
      exact hev
  have hdatum : L.getD i default = hashFn (data.get ⟨i, hi⟩) := by
    rcases hLcases with ⟨hod, _⟩ | ⟨_, hl⟩
    · rw [← hL, if_pos hod, getD_append_left lv _ i default (by omega), ← hlv]
      exact getD_map_get hashFn data i hi
    · rw [hl, ← hlv]
      exact getD_map_get hashFn data i hi
  have hln : lv.length ≤ L.length := by
    rcases hLcases with ⟨_, hl⟩ | ⟨_, hl⟩
    · omega
    · rw [hl]
  have hls : (if lv.length % 2 = 1 then lv.length + 1 else lv.length) = L.length := by
    rcases hLcases with ⟨hod, hl⟩ | ⟨hev, hl⟩
    · rw [if_pos hod, hl]
    · rw [if_neg (by omega), hl]
  rw [ht, ← hdatum, ← hlvlen]
  exact merkleAux f zero L lv.length i h2 he (by omega) hln hls

theorem u32le_inj (n m : Nat) (hn : n < 4294967296) (hm : m < 4294967296)
    (h : u32le n = u32le m) : n = m := by
  simp only [u32le, List.cons.injEq, and_true] at h
  obtain ⟨h1, h2, h3, h4⟩ := h
  omega

theorem serializeTx_inj (t t' : TxRec) (hw : wfTx t) (hw' : wfTx t')
    (h : serializeTx t = serializeTx t') : t = t' := by
  obtain ⟨hs, hr, hn, hv⟩ := hw
  obtain ⟨hs', hr', hn', hv'⟩ := hw'
  unfold serializeTx at h
  obtain ⟨h1, h2⟩ := List.append_inj h (by rw [hs, hs'])
  obtain ⟨h3, h4⟩ := List.append_inj h2 rfl
  obtain ⟨h5, h6⟩ := List.append_inj h4 (by rw [hr, hr'])
  have hne : t.account_nonce = t'.account_nonce := u32le_inj _ _ hn hn' h3
  have hve : t.value = t'.value := u32le_inj _ _ hv hv' h6
  cases t with
  | mk s n r v =>
      cases t' with
      | mk s' n' r' v' =>
          simp only [TxRec.mk.injEq]
          exact ⟨h1, hne, h5, hve⟩

/-- C2: Blockchain tip selection with strict-greater tie-break.  In any
reachable state, inserting a block with known parent (fresh, non-zero hash)
moves the tip to the new block exactly when the new height `ph + 1` strictly
exceeds the current chain height; a tie leaves the incumbent tip in place
while the tied sibling is still stored in the map at its height. -/
theorem c2_tip_selection (g : Nat) (c : Chain) (b : RBlock) (pb : RBlock) (ph : Nat)
    (hr : Reached g c)
    (hp : alook b.parent c.block_map = some (pb, ph))
    (hf : alook b.bhash c.block_map = none) (_h0 : b.bhash ≠ 0) :
    ((bcInsert c b).tip = b.bhash ↔ c.height < ph + 1)
    ∧ (ph + 1 = c.height →
        (bcInsert c b).tip = c.tip
        ∧ alook b.bhash (bcInsert c b).block_map = some (b, ph + 1)) := by
  have inv := chainInv_reached g c hr
  rw [bcInsert_normal g c b inv pb ph hp]
  constructor
  · constructor
    · intro htip
      by_cases hlt : c.height < ph + 1
      · exact hlt
      · exfalso
        rw [show ((⟨(b.bhash, b, ph + 1) :: c.block_map,
            if c.height < ph + 1 then b.bhash else c.tip,
            max c.height (ph + 1)⟩ : Chain)).tip
            = (if c.height < ph + 1 then b.bhash else c.tip) from rfl, if_neg hlt] at htip
        obtain ⟨tb, htb⟩ := inv.tip_entry
        rw [htip, hf] at htb
        exact Option.noConfusion htb
    · intro hlt
      rw [show ((⟨(b.bhash, b, ph + 1) :: c.block_map,
          if c.height < ph + 1 then b.bhash else c.tip,
          max c.height (ph + 1)⟩ : Chain)).tip
          = (if c.height < ph + 1 then b.bhash else c.tip) from rfl, if_pos hlt]
  · intro htie
    have hnlt : ¬ c.height < ph + 1 := by omega
    constructor
    · rw [show ((⟨(b.bhash, b, ph + 1) :: c.block_map,
        if c.height < ph + 1 then b.bhash else c.tip,
        max c.height (ph + 1)⟩ : Chain)).tip
        = (if c.height < ph + 1 then b.bhash else c.tip) from rfl, if_neg hnlt]
    · rw [show ((⟨(b.bhash, b, ph + 1) :: c.block_map,
        if c.height < ph + 1 then b.bhash else c.tip,
        max c.height (ph + 1)⟩ : Chain)).block_map
        = (b.bhash, b, ph + 1) :: c.block_map from rfl]
      rw [alook_cons, if_pos rfl]

/-- C2 witness: a concrete tie.  On the chain genesis → B1(2) → B2(3) of
height 2, inserting B4 = ⟨4, parent 2⟩ (new height 2, a tie) keeps the tip
and stores the sibling. -/
theorem c2_tip_selection_witness :
    ((bcInsert (bcInsert (bcInsert (bcNew 1) ⟨2, 1⟩) ⟨3, 2⟩) ⟨4, 2⟩).tip = 4
      ↔ (bcInsert (bcInsert (bcNew 1) ⟨2, 1⟩) ⟨3, 2⟩).height < 1 + 1)
    ∧ (1 + 1 = (bcInsert (bcInsert (bcNew 1) ⟨2, 1⟩) ⟨3, 2⟩).height →
        (bcInsert (bcInsert (bcInsert (bcNew 1) ⟨2, 1⟩) ⟨3, 2⟩) ⟨4, 2⟩).tip
          = (bcInsert (bcInsert (bcNew 1) ⟨2, 1⟩) ⟨3, 2⟩).tip
        ∧ alook 4 (bcInsert (bcInsert (bcInsert (bcNew 1) ⟨2, 1⟩) ⟨3, 2⟩) ⟨4, 2⟩).block_map
          = some (⟨4, 2⟩, 1 + 1)) :=
  c2_tip_selection 1 (bcInsert (bcInsert (bcNew 1) ⟨2, 1⟩) ⟨3, 2⟩) ⟨4, 2⟩ ⟨2, 1⟩ 1
    (Reached.step 1 _ ⟨3, 2⟩
      (Reached.step 1 _ ⟨2, 1⟩ (Reached.base 1 (by decide)) (by decide) (by decide) (by decide))
      (by decide) (by decide) (by decide))
    (by decide) (by decide) (by decide)

/-- C3: Height bookkeeping and longest-chain enumeration.  In any reachable
state: every stored entry links to its parent one height below (the genesis,
and only it, sits at height 0 with the zero parent), the tip is stored at the
chain height, and the longest-chain enumeration has length `height + 1`,
starts at the genesis, ends at the tip, and each consecutive pair is
parent followed by child. -/
theorem c3_longest_chain_invariant (g : Nat) (c : Chain) (hr : Reached g c) :
    (∀ h pb ht, alook h c.block_map = some (pb, ht) →
        (ht = 0 → pb.parent = 0 ∧ h = g)
        ∧ (0 < ht → ∃ pp, alook pb.parent c.block_map = some (pp, ht - 1)))
    ∧ (∃ tb, alook c.tip c.block_map = some (tb, c.height))
    ∧ (allBlocksInLongestChain c).length = c.height + 1
    ∧ (∃ rest, allBlocksInLongestChain c = g :: rest)
    ∧ (allBlocksInLongestChain c).getLast? = some c.tip
    ∧ List.Chain' (fun x y => parentOf c y = x) (allBlocksInLongestChain c) := by
  have inv := chainInv_reached g c hr
  obtain ⟨tb, htb⟩ := inv.tip_entry
  have hab := allBlocks_spec g c inv
  obtain ⟨hlen, ⟨rest, hrev⟩, hchain⟩ := ancSpec_reverse_spec g c inv c.height c.tip tb htb
  refine ⟨?_, ⟨tb, htb⟩, ?_, ⟨rest, ?_⟩, ?_, ?_⟩
  · intro h pb ht hl
    obtain ⟨l1, l2, _⟩ := inv.link h pb ht hl
    exact ⟨l1, l2⟩
  · rw [hab]
    simp [hlen]
  · rw [hab]
    exact hrev
  · rw [hab]
    exact List.getLast?_concat _
  · rw [hab]
    exact hchain

/-- C3 witness at the chain genesis → B1(2) → B2(3). -/
theorem c3_longest_chain_invariant_witness :
    (∀ h pb ht,
        alook h (bcInsert (bcInsert (bcNew 1) ⟨2, 1⟩) ⟨3, 2⟩).block_map = some (pb, ht) →
        (ht = 0 → pb.parent = 0 ∧ h = 1)
        ∧ (0 < ht → ∃ pp,
            alook pb.parent (bcInsert (bcInsert (bcNew 1) ⟨2, 1⟩) ⟨3, 2⟩).block_map
              = some (pp, ht - 1)))
    ∧ (∃ tb, alook (bcInsert (bcInsert (bcNew 1) ⟨2, 1⟩) ⟨3, 2⟩).tip
        (bcInsert (bcInsert (bcNew 1) ⟨2, 1⟩) ⟨3, 2⟩).block_map
        = some (tb, (bcInsert (bcInsert (bcNew 1) ⟨2, 1⟩) ⟨3, 2⟩).height))
    ∧ (allBlocksInLongestChain (bcInsert (bcInsert (bcNew 1) ⟨2, 1⟩) ⟨3, 2⟩)).length
        = (bcInsert (bcInsert (bcNew 1) ⟨2, 1⟩) ⟨3, 2⟩).height + 1
    ∧ (∃ rest, allBlocksInLongestChain (bcInsert (bcInsert (bcNew 1) ⟨2, 1⟩) ⟨3, 2⟩)
        = 1 :: rest)
    ∧ (allBlocksInLongestChain (bcInsert (bcInsert (bcNew 1) ⟨2, 1⟩) ⟨3, 2⟩)).getLast?
        = some (bcInsert (bcInsert (bcNew 1) ⟨2, 1⟩) ⟨3, 2⟩).tip
    ∧ List.Chain' (fun x y => parentOf (bcInsert (bcInsert (bcNew 1) ⟨2, 1⟩) ⟨3, 2⟩) y = x)
        (allBlocksInLongestChain (bcInsert (bcInsert (bcNew 1) ⟨2, 1⟩) ⟨3, 2⟩)) :=
  c3_longest_chain_invariant 1 (bcInsert (bcInsert (bcNew 1) ⟨2, 1⟩) ⟨3, 2⟩)
    (Reached.step 1 _ ⟨3, 2⟩
      (Reached.step 1 _ ⟨2, 1⟩ (Reached.base 1 (by decide)) (by decide) (by decide) (by decide))
      (by decide) (by decide) (by decide))

/-- C4: Miner acceptance predicate and mempool cleanup.  The candidate block
is published exactly when its hash, read as a big-endian integer, is at most
the difficulty; publication removes every included transaction from the
mempool map while leaving the suppression set unchanged, and an unsolved
iteration leaves the mempool untouched. -/
theorem c4_miner_acceptance {τ : Type} (hashT : τ → Nat) (mp : Mempool τ)
    (bh diff : List Nat) (txs : List τ)
    (hlen : bh.length = diff.length)
    (hba : ∀ x ∈ bh, x < 256) (hbb : ∀ x ∈ diff, x < 256) :
    ((minerPublishStep hashT mp bh diff txs).2 = true ↔ beVal bh ≤ beVal diff)
    ∧ ((minerPublishStep hashT mp bh diff txs).2 = true →
        (∀ tx ∈ txs,
          alook (hashT tx) (minerPublishStep hashT mp bh diff txs).1.transaction_map = none)
        ∧ (minerPublishStep hashT mp bh diff txs).1.transaction_set = mp.transaction_set)
    ∧ ((minerPublishStep hashT mp bh diff txs).2 = false →
        (minerPublishStep hashT mp bh diff txs).1 = mp) := by
  unfold minerPublishStep
  by_cases hle : h256_le bh diff = true
  · rw [if_pos hle]
    refine ⟨?_, ?_, ?_⟩
    · simp only [true_iff]
      exact (h256_le_iff_beVal bh diff hlen hba hbb).mp hle
    · intro _
      exact ⟨foldRemove_removes hashT txs mp, foldRemove_set hashT txs mp⟩
    · intro hfalse
      simp at hfalse
  · rw [if_neg hle]
    have hble : ¬ beVal bh ≤ beVal diff :=
      fun hb => hle ((h256_le_iff_beVal bh diff hlen hba hbb).mpr hb)
    refine ⟨?_, ?_, ?_⟩
    · dsimp only
      simp only [Bool.false_eq_true, false_iff]
      exact hble
    · intro htrue
      simp at htrue
    · intro _
      rfl

/-- C4 witness: a solved iteration with hash `[0, 1]` against difficulty
`[0, 2]` over a one-transaction mempool. -/
theorem c4_miner_acceptance_witness :
    ([0, 1] : List Nat).length = ([0, 2] : List Nat).length
    ∧ (∀ x ∈ ([0, 1] : List Nat), x < 256)
    ∧ (∀ x ∈ ([0, 2] : List Nat), x < 256)
    ∧ (((minerPublishStep (fun t : Nat => t) ⟨[(5, 5)], [5]⟩ [0, 1] [0, 2] [5]).2 = true
        ↔ beVal [0, 1] ≤ beVal [0, 2])
      ∧ ((minerPublishStep (fun t : Nat => t) ⟨[(5, 5)], [5]⟩ [0, 1] [0, 2] [5]).2 = true →
          (∀ tx ∈ ([5] : List Nat),
            alook tx (minerPublishStep (fun t : Nat => t) ⟨[(5, 5)], [5]⟩
              [0, 1] [0, 2] [5]).1.transaction_map = none)
          ∧ (minerPublishStep (fun t : Nat => t) ⟨[(5, 5)], [5]⟩
              [0, 1] [0, 2] [5]).1.transaction_set
            = (⟨[(5, 5)], [5]⟩ : Mempool Nat).transaction_set)
      ∧ ((minerPublishStep (fun t : Nat => t) ⟨[(5, 5)], [5]⟩ [0, 1] [0, 2] [5]).2 = false →
          (minerPublishStep (fun t : Nat => t) ⟨[(5, 5)], [5]⟩ [0, 1] [0, 2] [5]).1
            = ⟨[(5, 5)], [5]⟩)) :=
  ⟨by decide, by decide, by decide,
    c4_miner_acceptance (fun t : Nat => t) ⟨[(5, 5)], [5]⟩ [0, 1] [0, 2] [5]
      (by decide) (by decide) (by decide)⟩

/-- C5: Miner byte budget.  The selected transactions are a prefix of the
snapshot's iteration order, their total serialized size stays within 4000
bytes, and selection stops exactly at the first transaction whose addition
would exceed 4000 bytes. -/
theorem c5_miner_byte_budget {τ : Type} (size : τ → Nat) (pending : List τ) :
    minerSelect size pending = pending.take (minerSelect size pending).length
    ∧ ((minerSelect size pending).map size).sum ≤ 4000
    ∧ (∀ tx, (pending.drop (minerSelect size pending).length).head? = some tx →
        4000 < ((minerSelect size pending).map size).sum + size tx) := by
  obtain ⟨h1, h2, h3⟩ := selectTxs_spec size 4000 pending 0 (by omega)
  exact ⟨h1, by simpa using h2, fun tx htx => by simpa using h3 tx htx⟩

/-- C5 witness: sizes 1000, 2000, 1500, 10 select exactly the prefix
`[1000, 2000]` (adding 1500 would reach 4500 > 4000). -/
theorem c5_miner_byte_budget_witness :
    minerSelect (fun t : Nat => t) [1000, 2000, 1500, 10]
      = ([1000, 2000, 1500, 10] : List Nat).take
          (minerSelect (fun t : Nat => t) [1000, 2000, 1500, 10]).length
    ∧ ((minerSelect (fun t : Nat => t) [1000, 2000, 1500, 10]).map (fun t : Nat => t)).sum ≤ 4000
    ∧ (∀ tx, (([1000, 2000, 1500, 10] : List Nat).drop
          (minerSelect (fun t : Nat => t) [1000, 2000, 1500, 10]).length).head? = some tx →
        4000 < ((minerSelect (fun t : Nat => t) [1000, 2000, 1500, 10]).map
          (fun t : Nat => t)).sum + tx) :=
  c5_miner_byte_budget (fun t : Nat => t) [1000, 2000, 1500, 10]

/-- C6: Mempool suppression is permanent.  After `insert(t)`, any later
`insert(t)` is a no-op across any intervening operations; `remove` never
touches the suppression set; and the set grows monotonically under any
operation sequence. -/
theorem c6_mempool_suppression {τ : Type} (hashT : τ → Nat) (m : Mempool τ) (t : τ)
    (ops : List (MpOp τ)) (h x : Nat) :
    mpInsert hashT (mpRun hashT (mpInsert hashT m t) ops) t
      = mpRun hashT (mpInsert hashT m t) ops
    ∧ (mpRemove m h).transaction_set = m.transaction_set
    ∧ (x ∈ m.transaction_set → x ∈ (mpRun hashT m ops).transaction_set) := by
  refine ⟨?_, mpRemove_set m h, fun hx => mpRun_set_mono hashT m ops x hx⟩
  apply mpInsert_of_mem
  exact mpRun_set_mono hashT (mpInsert hashT m t) ops (hashT t) (mpInsert_mem_set hashT m t)

/-- C6 witness: re-inserting transaction 7 after a remove is a no-op, and the
set only grows. -/
theorem c6_mempool_suppression_witness :
    mpInsert (fun t : Nat => t)
        (mpRun (fun t : Nat => t) (mpInsert (fun t : Nat => t) ⟨[(3, 3)], [3]⟩ 7)
          [MpOp.rem 7, MpOp.ins 9]) 7
      = mpRun (fun t : Nat => t) (mpInsert (fun t : Nat => t) ⟨[(3, 3)], [3]⟩ 7)
          [MpOp.rem 7, MpOp.ins 9]
    ∧ (mpRemove (⟨[(3, 3)], [3]⟩ : Mempool Nat) 3).transaction_set
      = (⟨[(3, 3)], [3]⟩ : Mempool Nat).transaction_set
    ∧ (3 ∈ (⟨[(3, 3)], [3]⟩ : Mempool Nat).transaction_set →
        3 ∈ (mpRun (fun t : Nat => t) ⟨[(3, 3)], [3]⟩
          [MpOp.rem 7, MpOp.ins 9]).transaction_set) :=
  c6_mempool_suppression (fun t : Nat => t) ⟨[(3, 3)], [3]⟩ 7 [MpOp.rem 7, MpOp.ins 9] 3 3

/-- C1 witness: the round-trip at the concrete pair hash
`f a b = a + 2b + 1`, identity leaf hash, leaves `[3, 4, 5]`, index 2. -/
theorem c1_merkle_inclusion_roundtrip_witness :
    1 ≤ ([3, 4, 5] : List Nat).length
    ∧ merkleVerify (fun a b => a + 2 * b + 1)
        (merkleRoot 0 (merkleNew (fun a b => a + 2 * b + 1) (fun x : Nat => x) [3, 4, 5]))
        ((fun x : Nat => x) (([3, 4, 5] : List Nat).get ⟨2, by decide⟩))
        (merkleProof (merkleNew (fun a b => a + 2 * b + 1) (fun x : Nat => x) [3, 4, 5]) 2)
        2 ([3, 4, 5] : List Nat).length = true :=
  ⟨by decide,
    c1_merkle_inclusion_roundtrip (fun a b => a + 2 * b + 1) (fun x : Nat => x) 0
      [3, 4, 5] 2 (by decide) (by decide)⟩

/-- C7 counterexample: `MerkleTree::new` duplicates the leaf layer even for a
single leaf (the `len % 2 == 1` check there has no `!= 1` guard), so with the
pair hash `f a b = a + b + 1` and identity leaf hash the root of `[5]` is
`f 5 5 = 11`, not the leaf's own hash `5`. -/
theorem c7_single_leaf_counterexample :
    ¬ merkleRoot 0 (merkleNew (fun a b => a + b + 1) (fun x : Nat => x) [5])
        = (fun x : Nat => x) 5 := by decide

/-- C7 amended: for a single-leaf list the leaf hash is duplicated and the
root is the pair hash of the leaf hash with itself (for SHA-256:
`SHA-256(h ∥ h)`), not the leaf hash itself. -/
theorem c7_single_leaf_root_amended {H T : Type} [Inhabited H]
    (f : H → H → H) (hashFn : T → H) (zero : H) (x : T) :
    merkleRoot zero (merkleNew f hashFn [x]) = f (hashFn x) (hashFn x) := rfl

/-- C8: Signature round-trip and failure behaviour.  The repository wrapper
signs and verifies the canonical serialization of the unsigned transaction;
for any scheme satisfying the Ed25519 contract (the external ring crate), the
round trip verifies, and verification fails for a different well-formed
transaction (canonical serialization is injective) or a different keypair.
`verifyTx` is a total `Bool`, so invalid signatures and unparseable keys
yield `false`, never an error. -/
theorem c8_signature_roundtrip {κ σ : Type} (E : Ed25519Model κ σ) (k k' : κ) (t t' : TxRec)
    (hw : wfTx t) (hw' : wfTx t') :
    verifyTx E t (E.pubkey k) (signTx E t k) = true
    ∧ (t' ≠ t → verifyTx E t' (E.pubkey k) (signTx E t k) = false)
    ∧ (k' ≠ k → verifyTx E t (E.pubkey k') (signTx E t k) = false) := by
  refine ⟨E.sign_verify k (serializeTx t), ?_, ?_⟩
  · intro hne
    apply E.verify_msg
    intro hser
    exact hne (serializeTx_inj t' t hw' hw hser)
  · intro hne
    apply E.verify_key
    intro hpk
    exact hne (E.pubkey_inj k' k hpk)

/-- C8 witness at the concrete ideal scheme with keys 1 and 2 and two
well-formed transactions differing in the nonce. -/
theorem c8_signature_roundtrip_witness :
    wfTx ⟨List.replicate 20 0, 1, List.replicate 20 1, 5⟩
    ∧ wfTx ⟨List.replicate 20 0, 2, List.replicate 20 1, 5⟩
    ∧ (verifyTx idealEd25519 ⟨List.replicate 20 0, 1, List.replicate 20 1, 5⟩
        (idealEd25519.pubkey 1)
        (signTx idealEd25519 ⟨List.replicate 20 0, 1, List.replicate 20 1, 5⟩ 1) = true
      ∧ ((⟨List.replicate 20 0, 2, List.replicate 20 1, 5⟩ : TxRec)
            ≠ ⟨List.replicate 20 0, 1, List.replicate 20 1, 5⟩ →
          verifyTx idealEd25519 ⟨List.replicate 20 0, 2, List.replicate 20 1, 5⟩
            (idealEd25519.pubkey 1)
            (signTx idealEd25519 ⟨List.replicate 20 0, 1, List.replicate 20 1, 5⟩ 1) = false)
      ∧ ((2 : Nat) ≠ 1 →
          verifyTx idealEd25519 ⟨List.replicate 20 0, 1, List.replicate 20 1, 5⟩
            (idealEd25519.pubkey 2)
            (signTx idealEd25519 ⟨List.replicate 20 0, 1, List.replicate 20 1, 5⟩ 1) = false)) :=
  ⟨⟨by decide, by decide, by decide, by decide⟩, ⟨by decide, by decide, by decide, by decide⟩,
    c8_signature_roundtrip idealEd25519 1 2
      ⟨List.replicate 20 0, 1, List.replicate 20 1, 5⟩
      ⟨List.replicate 20 0, 2, List.replicate 20 1, 5⟩
      ⟨by decide, by decide, by decide, by decide⟩
      ⟨by decide, by decide, by decide, by decide⟩⟩

/-- C9 (code bug evidence): in the `Paused` state the `Update` control signal
is an explicit no-op, but in the `Run` state both the miner loop and the
transaction-generator loop dispatch `Update` to `unimplemented!()`, which
panics (`none` in the model) — contradicting the spec's no-panic requirement. -/
theorem c9_update_signal (lam : Nat) :
    handleSignalPaused ControlSig.Update = OpState.Paused
    ∧ handleSignalRun lam ControlSig.Update = none :=
  ⟨rfl, rfl⟩

/-- C10: Genesis determinism.  `Blockchain::new` builds the genesis block
with the zero parent, nonce 0, timestamp 0, the fixed `DIFFICULTY`, empty
content, and the zero Merkle root (the empty tree's root), so for any header
hash function two fresh blockchains agree on the genesis hash, tip and
height 0. -/
theorem c10_genesis_deterministic (hashH : HeaderM → Nat) :
    genesisBlock = ⟨⟨zeroH, 0, DIFFICULTY, 0, zeroH⟩, []⟩
    ∧ blockchainNew hashH
      = ⟨[(hashH genesisHeader, ⟨hashH genesisHeader, 0⟩, 0)], hashH genesisHeader, 0⟩
    ∧ (blockchainNew hashH).tip = hashH genesisHeader
    ∧ (blockchainNew hashH).height = 0 :=
  ⟨by decide, rfl, rfl, rfl⟩
